import Mathlib

/-!
Shallow embedding of the Shandong mahjong rule engine
(`mahjong_game.py`, `mahjong_complete.py`): tile model, win evaluator
(seven pairs and standard shape with wildcard budget), waiting analyzer,
run-claim legality, score calculator, and the tile-moving skeleton of the
round simulator.  Counters (`collections.Counter` keyed by the dense tile
index) are modelled as functions `Nat → Nat`; hands are lists of cards;
Python integers that can go negative are modelled as `Int`, and the
nonnegative counters/budgets as `Nat` with the source's guards making the
truncated subtractions exact.
-/

namespace Mahjong

/-- Tile suit, mirroring `CardType` (WAN/TONG/TIAO numeric, FENG/JIAN honors). -/
inductive CardType where
  | wan
  | tong
  | tiao
  | feng
  | jian
deriving DecidableEq, Repr

/-- A tile, mirroring `Card`: a suit plus a rank.  The rank is an `Int`
because `Card.from_index` applies no range validation and can produce
values outside the documented ranges. -/
structure Card where
  type : CardType
  value : Int
deriving DecidableEq, Repr

/-- `Card.to_index`: dense index of a tile (0..33 for valid tiles). -/
def Card.toIndex (c : Card) : Int :=
  match c.type with
  | .wan => c.value - 1
  | .tong => 9 + c.value - 1
  | .tiao => 18 + c.value - 1
  | .feng => 27 + c.value - 1
  | .jian => 31 + c.value - 1

/-- `Card.from_index`: build a tile from a dense index.  The source performs
no range check: every integer falls into one of the branches. -/
def Card.fromIndex (index : Int) : Card :=
  if index < 9 then ⟨.wan, index + 1⟩
  else if index < 18 then ⟨.tong, index - 9 + 1⟩
  else if index < 27 then ⟨.tiao, index - 18 + 1⟩
  else if index < 31 then ⟨.feng, index - 27 + 1⟩
  else ⟨.jian, index - 31 + 1⟩

/-- `Card.is_jiang`: pair-eligible ("jiang") tiles are ranks 2, 5, 8 of the
three numeric suits. -/
def Card.isJiang (c : Card) : Bool :=
  (c.type == .wan || c.type == .tong || c.type == .tiao) &&
    (c.value == 2 || c.value == 5 || c.value == 8)

/-- The rank ranges documented in the source (`1-9 for WAN/TONG/TIAO,
1-4 for FENG, 1-3 for JIAN`): a card is valid when its rank lies in the
range of its suit. -/
def Card.valid (c : Card) : Bool :=
  match c.type with
  | .wan | .tong | .tiao => decide (1 ≤ c.value ∧ c.value ≤ 9)
  | .feng => decide (1 ≤ c.value ∧ c.value ≤ 4)
  | .jian => decide (1 ≤ c.value ∧ c.value ≤ 3)

/-- Number of cards of a hand whose dense index is `i`
(one entry of `Counter(c.to_index() for c in hand)`). -/
def countIdx (hand : List Card) (i : Int) : Nat :=
  (hand.filter (fun c => c.toIndex == i)).length

/-- The hand's counter restricted to the (nonnegative) dense alphabet. -/
def countsOf (hand : List Card) : Nat → Nat :=
  fun i => countIdx hand (i : Int)

/-- Natural pairs of a hand: `sum(count // 2 for count in card_counts.values())`,
iterating over the counter's keys, i.e. the distinct indices of the hand. -/
def pairsOf (hand : List Card) : Nat :=
  (((hand.map Card.toIndex).dedup).map (fun i => countIdx hand i / 2)).sum

/-- `_check_qidui`: seven natural pairs, or wildcards covering the missing
pairs (`magic_count >= 7 - pairs`). -/
def checkQidui (hand : List Card) (magicCount : Nat) : Bool :=
  if 7 ≤ pairsOf hand then true
  else decide (7 - pairsOf hand ≤ magicCount)

/-- Total of a counter over the alphabet `0..n-1`
(`sum(card_counts.values())` for counters supported there). -/
def sumC (n : Nat) (counts : Nat → Nat) : Nat :=
  ((List.range n).map counts).sum

/-- Pointwise counter update at one index. -/
def setC (counts : Nat → Nat) (i v : Nat) : Nat → Nat :=
  fun j => if j = i then v else counts j

/-- Remove one copy of each of `i`, `i+1`, `i+2` that is present
(the run branch of `_can_form_groups` only decrements indices with a
nonzero count). -/
def decRun (counts : Nat → Nat) (i : Nat) : Nat → Nat :=
  fun j =>
    if (j = i ∨ j = i + 1 ∨ j = i + 2) ∧ 0 < counts j then counts j - 1
    else counts j

/-- First index in `[start, start+fuel)` with a nonzero count
(the `for i in range(n)` scan that breaks at the first live tile kind). -/
def firstNonzeroFrom (counts : Nat → Nat) : Nat → Nat → Option Nat
  | _, 0 => none
  | start, fuel + 1 =>
    if 0 < counts start then some start
    else firstNonzeroFrom counts (start + 1) fuel

/-- First index in `[0, n)` with a nonzero count. -/
def firstNonzero (counts : Nat → Nat) (n : Nat) : Option Nat :=
  firstNonzeroFrom counts 0 n

/-- `_can_form_groups`: backtracking search for `groups` triplets/runs.
At the first live index the source tries, in order: a natural triplet; a
wildcard-completed triplet (note `used_magic = 3 - count` is a Python int,
so a count above 3 *adds* `count - 3` to the budget — modelled by the
truncated `magic + counts i - 3` which is exact under the guard); a run
(decrementing each present member once, with `remaining_needed =
3 - total_have` again possibly negative); and finally the all-wildcard
fallback `magic_count >= groups_needed * 3`, which in the source is also
reached after the three attempts at the first live index fail. -/
def canFormGroups (n : Nat) : Nat → (Nat → Nat) → Nat → Bool
  | 0, counts, magic => decide (sumC n counts ≤ magic)
  | g + 1, counts, magic =>
    (match firstNonzero counts n with
     | none => false
     | some i =>
       (if 3 ≤ counts i then
          canFormGroups n g (setC counts i (counts i - 3)) magic
        else false) ||
       (if 3 ≤ counts i + magic then
          canFormGroups n g (setC counts i 0) (magic + counts i - 3)
        else false) ||
       (if i < 27 ∧ i % 9 ≤ 6 then
          (if 3 ≤ counts i + counts (i + 1) + counts (i + 2) + magic then
             canFormGroups n g (decRun counts i)
               (magic + (counts i + counts (i + 1) + counts (i + 2)) - 3)
           else false)
        else false)) ||
    decide (3 * (g + 1) ≤ magic)

/-- The eye ("jiang") removal of `_check_standard`: a natural pair, a single
copy plus one wildcard, or two wildcards; otherwise this eye is skipped. -/
def removeJiang (counts : Nat → Nat) (magic : Nat) (j : Nat) :
    Option ((Nat → Nat) × Nat) :=
  if 2 ≤ counts j then some (setC counts j (counts j - 2), magic)
  else if counts j = 1 ∧ 1 ≤ magic then some (setC counts j 0, magic - 1)
  else if 2 ≤ magic then some (counts, magic - 2)
  else none

/-- One eye candidate of `_check_standard`: the index must be pair-eligible,
the pair must be removable, and the 12 remaining tiles must form 4 groups. -/
def eyeOk (n : Nat) (counts : Nat → Nat) (magic : Nat) (j : Nat) : Bool :=
  if (Card.fromIndex (j : Int)).isJiang then
    match removeJiang counts magic j with
    | some (counts', magic') => canFormGroups n 4 counts' magic'
    | none => false
  else false

/-- The eye scan of `_check_standard` over `[start, start+fuel)`: first
eligible eye whose removal leaves 4 formable groups. -/
def checkStandardFrom (n : Nat) (counts : Nat → Nat) (magic : Nat) :
    Nat → Nat → Option Card
  | _, 0 => none
  | j, fuel + 1 =>
    if eyeOk n counts magic j then some (Card.fromIndex (j : Int))
    else checkStandardFrom n counts magic (j + 1) fuel

/-- `_check_standard`: scan all eye candidates in ascending index order. -/
def checkStandard (n : Nat) (counts : Nat → Nat) (magic : Nat) : Option Card :=
  checkStandardFrom n counts magic 0 n

/-- Result of `can_hu`: the completion-shape tag of the returned info dict
(`{"type": "七对"}` or `{"type": "平胡", "info": {"jiang": card}}`). -/
inductive HuType where
  | qidui
  | pinghu (jiang : Card)
deriving DecidableEq, Repr

/-- `can_hu`: seven pairs first, then the standard shape; `none` models the
`(False, {})` return. -/
def canHu (n : Nat) (hand : List Card) (magicCount : Nat) : Option HuType :=
  if checkQidui hand magicCount then some .qidui
  else
    match checkStandard n (countsOf hand) magicCount with
    | some jiang => some (.pinghu jiang)
    | none => none

/-- `get_ting_cards`: all tile kinds of the alphabet whose addition makes
the hand complete. -/
def getTingCards (n : Nat) (hand : List Card) (magicCount : Nat) : List Card :=
  ((List.range n).filter
      (fun i : Nat =>
        (canHu n (hand ++ [Card.fromIndex (i : Int)]) magicCount).isSome)).map
    (fun i : Nat => Card.fromIndex (i : Int))

/-- `can_chi`: run-claim legality.  Only from the seat directly upstream
(`(discarder_pos - player_pos) % 4 == 3`, Python's nonnegative `%` matching
`Int.emod`), never for honor tiles, and each of the three run shapes is
returned when its two other members are present in the hand. -/
def canChi (hand : List Card) (card : Card) (playerPos discarderPos : Int) :
    List (List Card) :=
  if (discarderPos - playerPos) % 4 ≠ 3 then []
  else if card.type = .feng ∨ card.type = .jian then []
  else
    (if card.value ≤ 7 ∧ Card.mk card.type (card.value + 1) ∈ hand ∧
        Card.mk card.type (card.value + 2) ∈ hand then
       [[card, Card.mk card.type (card.value + 1), Card.mk card.type (card.value + 2)]]
     else []) ++
    (if 2 ≤ card.value ∧ card.value ≤ 8 ∧ Card.mk card.type (card.value - 1) ∈ hand ∧
        Card.mk card.type (card.value + 1) ∈ hand then
       [[Card.mk card.type (card.value - 1), card, Card.mk card.type (card.value + 1)]]
     else []) ++
    (if 3 ≤ card.value ∧ Card.mk card.type (card.value - 2) ∈ hand ∧
        Card.mk card.type (card.value - 1) ∈ hand then
       [[Card.mk card.type (card.value - 2), Card.mk card.type (card.value - 1), card]]
     else [])

/-- One decomposition group of the standard shape, named by dense index:
a triplet of kind `i`, or the run `i, i+1, i+2`.  Used to state the
hand-shape hypotheses of the win-check claims. -/
inductive GroupSpec where
  | trip (i : Nat)
  | run (i : Nat)
deriving DecidableEq, Repr

/-- A triplet kind must lie in the alphabet; a run must start in a numeric
suit at a rank allowing two successors (`i % 9 ≤ 6`). -/
def GroupSpec.valid : GroupSpec → Bool
  | .trip i => decide (i < 27)
  | .run i => decide (i < 27 ∧ i % 9 ≤ 6)

/-- The tiles of a group. -/
def GroupSpec.cards : GroupSpec → List Card
  | .trip i => [Card.fromIndex (i : Int), Card.fromIndex (i : Int), Card.fromIndex (i : Int)]
  | .run i => [Card.fromIndex (i : Int), Card.fromIndex ((i : Int) + 1), Card.fromIndex ((i : Int) + 2)]

/-- The counter of a group. -/
def GroupSpec.cnt : GroupSpec → Nat → Nat
  | .trip i, j => if j = i then 3 else 0
  | .run i, j => if j = i ∨ j = i + 1 ∨ j = i + 2 then 1 else 0

/-- Tiles of a list of groups, concatenated. -/
def groupsCards : List GroupSpec → List Card
  | [] => []
  | g :: gs => g.cards ++ groupsCards gs

/-- Pointwise sum of the counters of a list of groups. -/
def sumGC : List GroupSpec → Nat → Nat
  | [] => fun _ => 0
  | g :: gs => fun j => g.cnt j + sumGC gs j

/-- Reference decomposition check, written to the specification's words
("decompose the remaining 12 tiles into exactly 4 groups") with a zero
wildcard budget: at the first live index, either a natural triplet or a
natural run, consuming exactly three tiles per group.  It is used to decide
whether a hand admits any genuine zero-substitution decomposition, for
comparison with the source's `_can_form_groups`. -/
def specFormGroups : Nat → (Nat → Nat) → Bool
  | 0, counts => decide (sumC 27 counts = 0)
  | g + 1, counts =>
    match firstNonzero counts 27 with
    | none => false
    | some i =>
      (decide (3 ≤ counts i) && specFormGroups g (setC counts i (counts i - 3))) ||
      (decide (i % 9 ≤ 6 ∧ 0 < counts (i + 1) ∧ 0 < counts (i + 2)) &&
        specFormGroups g (decRun counts i))

/-- Reference standard-shape check with zero wildcards: some pair-eligible
eye with a natural pair whose removal leaves four formable groups. -/
def specStandard (hand : List Card) : Bool :=
  (List.range 27).any (fun e =>
    (Card.fromIndex (e : Int)).isJiang &&
    decide (2 ≤ countsOf hand e) &&
    specFormGroups 4 (setC (countsOf hand) e (countsOf hand e - 2)))

/-- Base fan of a completion-shape tag as in `calculate_fan`
(strings are the tags of the info dict returned by `can_hu`). -/
def baseFan (huType : String) : Nat :=
  if huType = "七对" then 4
  else if huType = "平胡" then 1
  else 0

/-- `calculate_fan`: base fan by shape, +2 per gang, +1 self-draw, +1 dealer,
+1 per wildcard held.  `peng_cards` is accepted and unused, as in the source. -/
def calculateFan (huType : String) (_pengCards gangCards : List (List Card))
    (isZimo isZhuang : Bool) (magicCount : Nat) : Nat :=
  let fan := 0
  let fan := fan + (if huType = "七对" then 4 else if huType = "平胡" then 1 else 0)
  let fan := fan + gangCards.length * 2
  let fan := fan + (if isZimo then 1 else 0)
  let fan := fan + (if isZhuang then 1 else 0)
  let fan := fan + magicCount
  fan

/-! ### Round simulator skeleton

`MahjongGameSimulator.simulate_round` with the default engine configuration
(no honors, 108 tiles, no meld claims — the simulator only checks wins on
discards).  `random.shuffle` is abstracted by taking the already-shuffled
wall as an input list, and the heuristic `decide_discard` by an arbitrary
choice function; the tile-conservation claims hold for every shuffle and
every in-hand choice. -/

/-- `wall.pop()`: remove and return the last element. -/
def popEnd (w : List Card) : Option (Card × List Card) :=
  match w.reverse with
  | [] => none
  | c :: rest => some (c, rest.reverse)

/-- `[wall.pop() for _ in range(k)]`: `k` pops from the end, in pop order. -/
def popN : Nat → List Card → Option (List Card × List Card)
  | 0, w => some ([], w)
  | k + 1, w =>
    match popEnd w with
    | none => none
    | some (c, w') =>
      match popN k w' with
      | none => none
      | some (taken, w'') => some (c :: taken, w'')

/-- Result of `shuffle_and_deal`: the four hands, the wildcard tile set
aside, and the remaining wall. -/
structure DealResult where
  hands : List (List Card)
  magicCard : Card
  wall : List Card

/-- `shuffle_and_deal` on an already-shuffled wall: 14 tiles to the dealer,
13 to each other seat, then one tile set aside as the wildcard. -/
def shuffleAndDeal (wall0 : List Card) : Option DealResult :=
  match popN 14 wall0 with
  | none => none
  | some (h0, w1) =>
    match popN 13 w1 with
    | none => none
    | some (h1, w2) =>
      match popN 13 w2 with
      | none => none
      | some (h2, w3) =>
        match popN 13 w3 with
        | none => none
        | some (h3, w4) =>
          match popEnd w4 with
          | none => none
          | some (magic, w5) => some ⟨[h0, h1, h2, h3], magic, w5⟩

/-- One seat of the simulator: its hand and its count of wildcard tiles
held (`MahjongAI.hand`, `MahjongAI.magic_count`). -/
structure PlayerState where
  hand : List Card
  magicCount : Nat

/-- Tile-relevant round state: wall, four seats, global discard pile,
wildcard tile, current seat. -/
structure SimState where
  wall : List Card
  players : Fin 4 → PlayerState
  discarded : List Card
  magicCard : Card
  current : Fin 4

/-- `init_game`: each seat receives its dealt hand and counts its wildcard
tiles. -/
def initPlayers (d : DealResult) : Fin 4 → PlayerState :=
  fun i =>
    { hand := d.hands.getD i.val []
      magicCount := (d.hands.getD i.val []).count d.magicCard }

/-- Round state immediately after the deal. -/
def initState (d : DealResult) : SimState :=
  { wall := d.wall
    players := initPlayers d
    discarded := []
    magicCard := d.magicCard
    current := 0 }

/-- Outcome of one turn of `simulate_round`: the round ended (wall
exhausted, self-draw win, or discard-claim win), or play continues. -/
inductive StepResult where
  | terminal
  | cont (s : SimState)

/-- The hand of the current seat after appending the drawn tile. -/
def drawnHand (s : SimState) (c : Card) : List Card :=
  (s.players s.current).hand ++ [c]

/-- The current seat's wildcard count after the draw (`is_magic` check). -/
def drawnMagic (s : SimState) (c : Card) : Nat :=
  (s.players s.current).magicCount + (if c = s.magicCard then 1 else 0)

/-- `update_after_discard` on the hand: remove the first copy of the
discard when present (the source guards the removal with `in`). -/
def afterDiscard (h : List Card) (discard : Card) : List Card :=
  if discard ∈ h then h.erase discard else h

/-- One turn of `simulate_round`: draw from the wall (empty wall ends the
round), check self-draw win, discard the chosen tile (removed from the hand
when present, appended to the global pile), check every other seat for a
win on the discard, then pass the turn to the next seat. -/
def simStep (choose : List Card → Card) (s : SimState) : StepResult :=
  match popEnd s.wall with
  | none => .terminal
  | some (c, wall') =>
    if (canHu 27 (drawnHand s c) (drawnMagic s c)).isSome then .terminal
    else if (List.finRange 4).any (fun i =>
          decide (i ≠ s.current) &&
          (canHu 27 ((s.players i).hand ++ [choose (drawnHand s c)])
            (s.players i).magicCount).isSome) then .terminal
    else
      .cont
        { wall := wall'
          players := Function.update s.players s.current
            ⟨afterDiscard (drawnHand s c) (choose (drawnHand s c)), drawnMagic s c⟩
          discarded := s.discarded ++ [choose (drawnHand s c)]
          magicCard := s.magicCard
          current := s.current + 1 }

/-- Run `k` turns; `none` once the round has ended. -/
def runSim (choose : List Card → Card) : Nat → SimState → Option SimState
  | 0, s => some s
  | k + 1, s =>
    match simStep choose s with
    | .terminal => none
    | .cont s' => runSim choose k s'

/-- Tiles held in the four hands. -/
def handsTotal (s : SimState) : Nat :=
  ∑ i : Fin 4, (s.players i).hand.length

/-- Tile conservation: wall, the one set-aside wildcard tile, the four
hands and the global discard pile account for the whole 108-tile
population. -/
def tileConserved (s : SimState) : Prop :=
  s.wall.length + 1 + handsTotal s + s.discarded.length = 108

/-- `_init_cards` for one numeric suit: ranks 1..9, four copies each. -/
def suitCards (t : CardType) : List Card :=
  (List.range 9).foldr (fun v acc => List.replicate 4 (Card.mk t ((v : Int) + 1)) ++ acc) []

/-- `_init_cards` without honors: the 108-tile population. -/
def initCards : List Card :=
  suitCards .wan ++ suitCards .tong ++ suitCards .tiao

/-! ### Concrete hands used by the claims -/

/-- The specification's standard-win scenario hand: 1..6 wan, a 2-tong
pair, a 3-tong triplet, 5-6-7 tiao (suits A, B, C). -/
def stdWinHand : List Card :=
  [⟨.wan, 1⟩, ⟨.wan, 2⟩, ⟨.wan, 3⟩, ⟨.wan, 4⟩, ⟨.wan, 5⟩, ⟨.wan, 6⟩,
   ⟨.tong, 2⟩, ⟨.tong, 2⟩, ⟨.tong, 3⟩, ⟨.tong, 3⟩, ⟨.tong, 3⟩,
   ⟨.tiao, 5⟩, ⟨.tiao, 6⟩, ⟨.tiao, 7⟩]

/-- Seven distinct kinds, two copies each. -/
def qiduiHand : List Card :=
  [⟨.wan, 1⟩, ⟨.wan, 1⟩, ⟨.wan, 3⟩, ⟨.wan, 3⟩, ⟨.tong, 2⟩, ⟨.tong, 2⟩,
   ⟨.tong, 5⟩, ⟨.tong, 5⟩, ⟨.tiao, 4⟩, ⟨.tiao, 4⟩, ⟨.tiao, 7⟩, ⟨.tiao, 7⟩,
   ⟨.tiao, 9⟩, ⟨.tiao, 9⟩]

/-- Four valid groups plus an eligible pair whose tiles also form seven
natural pairs: the run 1-2-3 wan twice, the run 1-2-3 tong twice, and a
2-tiao pair. -/
def fourRunHand : List Card :=
  groupsCards [.run 0, .run 0, .run 9, .run 9] ++
    [Card.fromIndex (19 : Int), Card.fromIndex (19 : Int)]

/-- Four 1-wan, a 5-wan pair, a 2-tong pair, three 7-tong, three 9-tiao:
six natural pairs and no genuine zero-wildcard decomposition, yet accepted
by `can_hu` with no wildcards. -/
def bugHand : List Card :=
  [⟨.wan, 1⟩, ⟨.wan, 1⟩, ⟨.wan, 1⟩, ⟨.wan, 1⟩, ⟨.wan, 5⟩, ⟨.wan, 5⟩,
   ⟨.tong, 2⟩, ⟨.tong, 2⟩, ⟨.tong, 7⟩, ⟨.tong, 7⟩, ⟨.tong, 7⟩,
   ⟨.tiao, 9⟩, ⟨.tiao, 9⟩, ⟨.tiao, 9⟩]

/-- Six natural pairs plus two singles (1-2-3 wan twice, a 7-tong triplet,
a 9-tiao triplet, a 5-tiao pair) that is nevertheless a standard win. -/
def sixPairStdHand : List Card :=
  [⟨.wan, 1⟩, ⟨.wan, 2⟩, ⟨.wan, 3⟩, ⟨.wan, 1⟩, ⟨.wan, 2⟩, ⟨.wan, 3⟩,
   ⟨.tong, 7⟩, ⟨.tong, 7⟩, ⟨.tong, 7⟩,
   ⟨.tiao, 9⟩, ⟨.tiao, 9⟩, ⟨.tiao, 9⟩, ⟨.tiao, 5⟩, ⟨.tiao, 5⟩]

/-- Six pairs at ranks 1, 4, 7 plus two singles: no pair-eligible eye, so
only the seven-pairs shape could complete it. -/
def sixPairHand : List Card :=
  [⟨.wan, 1⟩, ⟨.wan, 1⟩, ⟨.wan, 4⟩, ⟨.wan, 4⟩, ⟨.wan, 7⟩, ⟨.wan, 7⟩,
   ⟨.tong, 1⟩, ⟨.tong, 1⟩, ⟨.tong, 4⟩, ⟨.tong, 4⟩, ⟨.tong, 7⟩, ⟨.tong, 7⟩,
   ⟨.tiao, 1⟩, ⟨.tiao, 4⟩]

/-- A thirteen-tile hand waiting exactly on 3-tong: 1..9 wan, 2-2-3-3
tong. -/
def tenpaiHand : List Card :=
  [⟨.wan, 1⟩, ⟨.wan, 2⟩, ⟨.wan, 3⟩, ⟨.wan, 4⟩, ⟨.wan, 5⟩, ⟨.wan, 6⟩,
   ⟨.wan, 7⟩, ⟨.wan, 8⟩, ⟨.wan, 9⟩,
   ⟨.tong, 2⟩, ⟨.tong, 2⟩, ⟨.tong, 3⟩, ⟨.tong, 3⟩]

/-- A small hand holding the neighbours of 3-wan on both sides. -/
def chiHand : List Card :=
  [⟨.wan, 1⟩, ⟨.wan, 2⟩, ⟨.wan, 4⟩, ⟨.wan, 5⟩]

/-! ### Basic facts about the tile model and counters -/

theorem toIndex_fromIndex (i : Nat) : (Card.fromIndex (i : Int)).toIndex = (i : Int) := by
  unfold Card.fromIndex
  split_ifs <;> simp only [Card.toIndex] <;> omega

theorem fromIndex_inj {i j : Nat}
    (h : Card.fromIndex (i : Int) = Card.fromIndex (j : Int)) : i = j := by
  have h2 := congrArg Card.toIndex h
  rw [toIndex_fromIndex, toIndex_fromIndex] at h2
  exact_mod_cast h2

theorem countIdx_nil (i : Int) : countIdx [] i = 0 := rfl

theorem countIdx_cons (c : Card) (t : List Card) (i : Int) :
    countIdx (c :: t) i = (if c.toIndex = i then 1 else 0) + countIdx t i := by
  simp only [countIdx, List.filter_cons, beq_iff_eq]
  split_ifs <;> simp [Nat.add_comm]

theorem countIdx_append (a b : List Card) (i : Int) :
    countIdx (a ++ b) i = countIdx a i + countIdx b i := by
  simp [countIdx, List.filter_append]

theorem countIdx_perm {a b : List Card} (h : a.Perm b) (i : Int) :
    countIdx a i = countIdx b i :=
  (h.filter _).length_eq

theorem countsOf_perm {a b : List Card} (h : a.Perm b) :
    ∀ j, countsOf a j = countsOf b j :=
  fun j => countIdx_perm h (j : Int)

theorem checkQidui_iff (hand : List Card) (m : Nat) :
    checkQidui hand m = true ↔ 7 ≤ pairsOf hand + m := by
  unfold checkQidui
  split_ifs with h
  · simp; omega
  · simp; omega

/-! ### The first-live-index scan -/

theorem firstNonzeroFrom_spec {counts : Nat → Nat} :
    ∀ fuel start i, firstNonzeroFrom counts start fuel = some i →
      0 < counts i ∧ start ≤ i ∧ i < start + fuel ∧
        ∀ j, start ≤ j → j < i → counts j = 0 := by
  intro fuel
  induction fuel with
  | zero => intro start i h; simp [firstNonzeroFrom] at h
  | succ f ih =>
    intro start i h
    unfold firstNonzeroFrom at h
    split_ifs at h with hpos
    · cases h
      exact ⟨hpos, Nat.le_refl _, by omega, fun j hj hj2 => by omega⟩
    · obtain ⟨h1, h2, h3, h4⟩ := ih (start + 1) i h
      refine ⟨h1, by omega, by omega, fun j hj hj2 => ?_⟩
      rcases Nat.eq_or_lt_of_le hj with rfl | hlt
      · omega
      · exact h4 j (by omega) hj2

theorem firstNonzeroFrom_exists {counts : Nat → Nat} :
    ∀ fuel start, (∃ j, start ≤ j ∧ j < start + fuel ∧ 0 < counts j) →
      ∃ i, firstNonzeroFrom counts start fuel = some i := by
  intro fuel
  induction fuel with
  | zero => intro start ⟨j, h1, h2, _⟩; omega
  | succ f ih =>
    intro start ⟨j, h1, h2, h3⟩
    unfold firstNonzeroFrom
    split_ifs with hpos
    · exact ⟨start, rfl⟩
    · apply ih (start + 1)
      rcases Nat.eq_or_lt_of_le h1 with rfl | hlt
      · exact absurd h3 hpos
      · exact ⟨j, by omega, by omega, h3⟩

theorem firstNonzero_spec {counts : Nat → Nat} {n i : Nat}
    (h : firstNonzero counts n = some i) :
    0 < counts i ∧ i < n ∧ ∀ j, j < i → counts j = 0 := by
  obtain ⟨h1, _, h3, h4⟩ := firstNonzeroFrom_spec n 0 i h
  exact ⟨h1, by omega, fun j hj => h4 j (Nat.zero_le j) hj⟩

theorem firstNonzero_exists {counts : Nat → Nat} {n j : Nat}
    (hj : j < n) (hpos : 0 < counts j) :
    ∃ i, firstNonzero counts n = some i :=
  firstNonzeroFrom_exists n 0 ⟨j, Nat.zero_le j, by omega, hpos⟩

/-! ### Counters of group lists -/

theorem sumGC_nil (j : Nat) : sumGC [] j = 0 := rfl

theorem sumGC_cons (g : GroupSpec) (gs : List GroupSpec) (j : Nat) :
    sumGC (g :: gs) j = g.cnt j + sumGC gs j := rfl

theorem sumGC_perm {gs gs' : List GroupSpec} (h : gs.Perm gs') :
    ∀ j, sumGC gs j = sumGC gs' j := by
  induction h with
  | nil => intro j; rfl
  | cons g _ ih => intro j; simp [sumGC_cons, ih j]
  | swap g g' l => intro j; simp [sumGC_cons]; omega
  | trans _ _ ih1 ih2 => intro j; rw [ih1 j, ih2 j]

theorem sumGC_pos {gs : List GroupSpec} {j : Nat} (h : 0 < sumGC gs j) :
    ∃ g ∈ gs, 0 < g.cnt j := by
  induction gs with
  | nil => simp [sumGC_nil] at h
  | cons g gs ih =>
    rw [sumGC_cons] at h
    by_cases h1 : 0 < g.cnt j
    · exact ⟨g, List.mem_cons_self g gs, h1⟩
    · have h2 : 0 < sumGC gs j := by omega
      obtain ⟨g', hg', hpos⟩ := ih h2
      exact ⟨g', List.mem_cons_of_mem g hg', hpos⟩

theorem sumGC_le_of_mem {gs : List GroupSpec} {g : GroupSpec} (h : g ∈ gs)
    (j : Nat) : g.cnt j ≤ sumGC gs j := by
  induction gs with
  | nil => simp at h
  | cons g' gs ih =>
    rw [sumGC_cons]
    rcases List.mem_cons.mp h with rfl | hm
    · omega
    · have := ih hm; omega

theorem countsOf_groupCards {g : GroupSpec} (hv : g.valid = true) (j : Nat) :
    countsOf g.cards j = g.cnt j := by
  cases g with
  | trip i =>
    simp only [GroupSpec.cards, GroupSpec.cnt, countsOf]
    rw [countIdx_cons, countIdx_cons, countIdx_cons, countIdx_nil, toIndex_fromIndex]
    simp only [Int.natCast_inj]
    split_ifs <;> omega
  | run i =>
    simp only [GroupSpec.cards, GroupSpec.cnt, countsOf]
    have e1 : ((i : Int) + 1) = ((i + 1 : Nat) : Int) := by push_cast; ring
    have e2 : ((i : Int) + 2) = ((i + 2 : Nat) : Int) := by push_cast; ring
    rw [countIdx_cons, countIdx_cons, countIdx_cons, countIdx_nil,
      e1, e2, toIndex_fromIndex, toIndex_fromIndex, toIndex_fromIndex]
    simp only [Int.natCast_inj]
    split_ifs <;> omega

theorem countsOf_groupsCards {gs : List GroupSpec}
    (hv : ∀ g ∈ gs, g.valid = true) (j : Nat) :
    countsOf (groupsCards gs) j = sumGC gs j := by
  induction gs with
  | nil => rfl
  | cons g gs ih =>
    have : countsOf (groupsCards (g :: gs)) j =
        countsOf g.cards j + countsOf (groupsCards gs) j := by
      simp only [groupsCards, countsOf]
      exact countIdx_append _ _ _
    rw [this, countsOf_groupCards (hv g (List.mem_cons_self g gs)) j,
      ih (fun g' hg' => hv g' (List.mem_cons_of_mem g hg')), sumGC_cons]

/-- Counter of a hand that is a permutation of four-groups-plus-a-pair. -/
theorem countsOf_decomp {hand : List Card} {gs : List GroupSpec} {e : Nat}
    (hv : ∀ g ∈ gs, g.valid = true)
    (hperm : hand.Perm
      (groupsCards gs ++ [Card.fromIndex (e : Int), Card.fromIndex (e : Int)])) :
    ∀ j, countsOf hand j = sumGC gs j + (if j = e then 2 else 0) := by
  intro j
  rw [countsOf_perm hperm j]
  show countIdx _ (j : Int) = _
  rw [countIdx_append, countIdx_cons, countIdx_cons, countIdx_nil, toIndex_fromIndex]
  rw [show countIdx (groupsCards gs) (j : Int) = sumGC gs j from countsOf_groupsCards hv j]
  simp only [Int.natCast_inj]
  split_ifs <;> omega

/-! ### Completeness of the group searches

A counter that is exactly a sum of valid group counters is accepted, both
by the source's `_can_form_groups` (any wildcard budget) and by the
reference zero-wildcard check: the group containing the first live index
must be a triplet there or a run starting there, and the corresponding
branch reproduces the remaining groups. -/

theorem exists_live_index {gs : List GroupSpec} (hne : gs ≠ [])
    (hv : ∀ g ∈ gs, g.valid = true) :
    ∃ j, j < 27 ∧ 0 < sumGC gs j := by
  cases gs with
  | nil => exact absurd rfl hne
  | cons g0 gs0 =>
    have hv0 := hv g0 (List.mem_cons_self _ _)
    cases g0 with
    | trip t =>
      refine ⟨t, ?_, ?_⟩
      · simpa [GroupSpec.valid] using hv0
      · rw [sumGC_cons]; simp [GroupSpec.cnt]
    | run r =>
      have hr : r < 27 ∧ r % 9 ≤ 6 := by simpa [GroupSpec.valid] using hv0
      refine ⟨r, hr.1, ?_⟩
      rw [sumGC_cons]; simp [GroupSpec.cnt]

theorem group_at_first {gs : List GroupSpec} {counts : Nat → Nat} {i : Nat}
    (hc : ∀ j, counts j = sumGC gs j)
    (hpos : 0 < counts i) (hmin : ∀ j, j < i → counts j = 0) :
    GroupSpec.trip i ∈ gs ∨ GroupSpec.run i ∈ gs := by
  have hp : 0 < sumGC gs i := by rw [← hc i]; exact hpos
  obtain ⟨g, hg, hpos'⟩ := sumGC_pos hp
  cases g with
  | trip t =>
    simp only [GroupSpec.cnt] at hpos'
    split_ifs at hpos' with ht
    · subst ht; exact Or.inl hg
    · omega
  | run r =>
    simp only [GroupSpec.cnt] at hpos'
    split_ifs at hpos' with hd
    · rcases hd with rfl | hd1
      · exact Or.inr hg
      · exfalso
        have hr1 : r < i := by omega
        have h0 : counts r = 0 := hmin r hr1
        have hle := sumGC_le_of_mem hg r
        have hcnt : (GroupSpec.run r).cnt r = 1 := by simp [GroupSpec.cnt]
        rw [hcnt] at hle
        rw [hc r] at h0
        omega
    · omega

theorem canFormGroups_complete :
    ∀ (k : Nat) (gs : List GroupSpec) (counts : Nat → Nat) (magic : Nat),
      gs.length = k → (∀ g ∈ gs, g.valid = true) →
      (∀ j, counts j = sumGC gs j) →
      canFormGroups 27 k counts magic = true := by
  intro k
  induction k with
  | zero =>
    intro gs counts magic hlen hv hc
    have hgs : gs = [] := List.length_eq_zero.mp hlen
    subst hgs
    have hz : sumC 27 counts = 0 := by
      unfold sumC
      apply List.sum_eq_zero
      intro x hx
      obtain ⟨j, _, rfl⟩ := List.mem_map.mp hx
      exact hc j
    simp [canFormGroups, hz]
  | succ g ih =>
    intro gs counts magic hlen hv hc
    have hne : gs ≠ [] := by intro h; rw [h] at hlen; simp at hlen
    obtain ⟨j0, hj0, hp0⟩ := exists_live_index hne hv
    have hnz : 0 < counts j0 := by rw [hc j0]; exact hp0
    obtain ⟨i, hfn⟩ := firstNonzero_exists hj0 hnz
    obtain ⟨hpos, hin, hmin⟩ := firstNonzero_spec hfn
    rcases group_at_first hc hpos hmin with hmem | hmem
    · -- the group at the first live index is a triplet
      set gs' := gs.erase (GroupSpec.trip i) with hgs'
      have hperm : gs.Perm (GroupSpec.trip i :: gs') := List.perm_cons_erase hmem
      have hrel : ∀ j, counts j = (GroupSpec.trip i).cnt j + sumGC gs' j := by
        intro j; rw [hc j, sumGC_perm hperm j, sumGC_cons]
      have h3 : 3 ≤ counts i := by
        rw [hrel i]; simp [GroupSpec.cnt]
      have hc' : ∀ j, setC counts i (counts i - 3) j = sumGC gs' j := by
        intro j
        by_cases hji : j = i
        · subst hji
          simp only [setC, if_pos rfl]
          rw [hrel j]; simp [GroupSpec.cnt]
        · simp only [setC, if_neg hji]
          rw [hrel j]; simp [GroupSpec.cnt, hji]
      have hlen' : gs'.length = g := by
        rw [hgs', List.length_erase_of_mem hmem, hlen]
        omega
      have hv' : ∀ g' ∈ gs', g'.valid = true :=
        fun g' hg' => hv g' (List.mem_of_mem_erase hg')
      have hrec := ih gs' _ magic hlen' hv' hc'
      simp only [canFormGroups, hfn, if_pos h3, hrec, Bool.true_or, Bool.or_true]
    · -- the group at the first live index is a run
      have hval : i < 27 ∧ i % 9 ≤ 6 := by
        have := hv _ hmem; simpa [GroupSpec.valid] using this
      set gs' := gs.erase (GroupSpec.run i) with hgs'
      have hperm : gs.Perm (GroupSpec.run i :: gs') := List.perm_cons_erase hmem
      have hrel : ∀ j, counts j = (GroupSpec.run i).cnt j + sumGC gs' j := by
        intro j; rw [hc j, sumGC_perm hperm j, sumGC_cons]
      have h1 : 1 ≤ counts i := by
        rw [hrel i]; simp [GroupSpec.cnt]
      have h2 : 1 ≤ counts (i + 1) := by
        rw [hrel (i + 1)]; simp [GroupSpec.cnt]
      have h3 : 1 ≤ counts (i + 2) := by
        rw [hrel (i + 2)]; simp [GroupSpec.cnt]
      have htot : 3 ≤ counts i + counts (i + 1) + counts (i + 2) + magic := by omega
      have hc' : ∀ j, decRun counts i j = sumGC gs' j := by
        intro j
        simp only [decRun]
        by_cases hj : j = i ∨ j = i + 1 ∨ j = i + 2
        · have hcj : counts j = 1 + sumGC gs' j := by
            rw [hrel j]; simp [GroupSpec.cnt, hj]
          rw [if_pos ⟨hj, by omega⟩, hcj]
          omega
        · rw [if_neg (fun hk => hj hk.1), hrel j]
          simp [GroupSpec.cnt, hj]
      have hlen' : gs'.length = g := by
        rw [hgs', List.length_erase_of_mem hmem, hlen]
        omega
      have hv' : ∀ g' ∈ gs', g'.valid = true :=
        fun g' hg' => hv g' (List.mem_of_mem_erase hg')
      have hrec := ih gs' _ (magic + (counts i + counts (i + 1) + counts (i + 2)) - 3)
        hlen' hv' hc'
      simp only [canFormGroups, hfn, if_pos hval, if_pos htot, hrec,
        Bool.true_or, Bool.or_true]

theorem specFormGroups_complete :
    ∀ (k : Nat) (gs : List GroupSpec) (counts : Nat → Nat),
      gs.length = k → (∀ g ∈ gs, g.valid = true) →
      (∀ j, counts j = sumGC gs j) →
      specFormGroups k counts = true := by
  intro k
  induction k with
  | zero =>
    intro gs counts hlen hv hc
    have hgs : gs = [] := List.length_eq_zero.mp hlen
    subst hgs
    have hz : sumC 27 counts = 0 := by
      unfold sumC
      apply List.sum_eq_zero
      intro x hx
      obtain ⟨j, _, rfl⟩ := List.mem_map.mp hx
      exact hc j
    simp [specFormGroups, hz]
  | succ g ih =>
    intro gs counts hlen hv hc
    have hne : gs ≠ [] := by intro h; rw [h] at hlen; simp at hlen
    obtain ⟨j0, hj0, hp0⟩ := exists_live_index hne hv
    have hnz : 0 < counts j0 := by rw [hc j0]; exact hp0
    obtain ⟨i, hfn⟩ := firstNonzero_exists hj0 hnz
    obtain ⟨hpos, hin, hmin⟩ := firstNonzero_spec hfn
    rcases group_at_first hc hpos hmin with hmem | hmem
    · set gs' := gs.erase (GroupSpec.trip i) with hgs'
      have hperm : gs.Perm (GroupSpec.trip i :: gs') := List.perm_cons_erase hmem
      have hrel : ∀ j, counts j = (GroupSpec.trip i).cnt j + sumGC gs' j := by
        intro j; rw [hc j, sumGC_perm hperm j, sumGC_cons]
      have h3 : 3 ≤ counts i := by
        rw [hrel i]; simp [GroupSpec.cnt]
      have hc' : ∀ j, setC counts i (counts i - 3) j = sumGC gs' j := by
        intro j
        by_cases hji : j = i
        · subst hji
          simp only [setC, if_pos rfl]
          rw [hrel j]; simp [GroupSpec.cnt]
        · simp only [setC, if_neg hji]
          rw [hrel j]; simp [GroupSpec.cnt, hji]
      have hlen' : gs'.length = g := by
        rw [hgs', List.length_erase_of_mem hmem, hlen]
        omega
      have hv' : ∀ g' ∈ gs', g'.valid = true :=
        fun g' hg' => hv g' (List.mem_of_mem_erase hg')
      have hrec := ih gs' _ hlen' hv' hc'
      simp only [specFormGroups, hfn, hrec, h3, decide_True, Bool.true_and,
        Bool.true_or, Bool.or_true]
    · have hval : i < 27 ∧ i % 9 ≤ 6 := by
        have := hv _ hmem; simpa [GroupSpec.valid] using this
      set gs' := gs.erase (GroupSpec.run i) with hgs'
      have hperm : gs.Perm (GroupSpec.run i :: gs') := List.perm_cons_erase hmem
      have hrel : ∀ j, counts j = (GroupSpec.run i).cnt j + sumGC gs' j := by
        intro j; rw [hc j, sumGC_perm hperm j, sumGC_cons]
      have h2 : 0 < counts (i + 1) := by
        rw [hrel (i + 1)]; simp [GroupSpec.cnt]
      have h3 : 0 < counts (i + 2) := by
        rw [hrel (i + 2)]; simp [GroupSpec.cnt]
      have hc' : ∀ j, decRun counts i j = sumGC gs' j := by
        intro j
        simp only [decRun]
        by_cases hj : j = i ∨ j = i + 1 ∨ j = i + 2
        · have hcj : counts j = 1 + sumGC gs' j := by
            rw [hrel j]; simp [GroupSpec.cnt, hj]
          rw [if_pos ⟨hj, by omega⟩, hcj]
          omega
        · rw [if_neg (fun hk => hj hk.1), hrel j]
          simp [GroupSpec.cnt, hj]
      have hlen' : gs'.length = g := by
        rw [hgs', List.length_erase_of_mem hmem, hlen]
        omega
      have hv' : ∀ g' ∈ gs', g'.valid = true :=
        fun g' hg' => hv g' (List.mem_of_mem_erase hg')
      have hrec := ih gs' _ hlen' hv' hc'
      simp only [specFormGroups, hfn]
      rw [Bool.or_eq_true]
      right
      rw [Bool.and_eq_true]
      exact ⟨by simp [hval.2, h2, h3], hrec⟩

/-! ### Monotonicity in the wildcard budget -/

theorem canFormGroups_succ_none {n g : Nat} {counts : Nat → Nat} {magic : Nat}
    (hfn : firstNonzero counts n = none) :
    canFormGroups n (g + 1) counts magic = decide (3 * (g + 1) ≤ magic) := by
  simp only [canFormGroups, hfn, Bool.false_or]

theorem canFormGroups_succ_some {n g : Nat} {counts : Nat → Nat} {magic i : Nat}
    (hfn : firstNonzero counts n = some i) :
    canFormGroups n (g + 1) counts magic =
      ((((if 3 ≤ counts i then
            canFormGroups n g (setC counts i (counts i - 3)) magic
          else false) ||
         (if 3 ≤ counts i + magic then
            canFormGroups n g (setC counts i 0) (magic + counts i - 3)
          else false)) ||
        (if i < 27 ∧ i % 9 ≤ 6 then
           (if 3 ≤ counts i + counts (i + 1) + counts (i + 2) + magic then
              canFormGroups n g (decRun counts i)
                (magic + (counts i + counts (i + 1) + counts (i + 2)) - 3)
            else false)
         else false)) ||
       decide (3 * (g + 1) ≤ magic)) := by
  simp only [canFormGroups, hfn]

theorem canFormGroups_mono (n : Nat) :
    ∀ (g : Nat) (counts : Nat → Nat) (m k : Nat),
      canFormGroups n g counts m = true → canFormGroups n g counts (m + k) = true := by
  intro g
  induction g with
  | zero =>
    intro counts m k h
    simp only [canFormGroups, decide_eq_true_eq] at h ⊢
    omega
  | succ g ih =>
    intro counts m k h
    cases hfn : firstNonzero counts n with
    | none =>
      rw [canFormGroups_succ_none hfn] at h
      rw [canFormGroups_succ_none hfn]
      simp only [decide_eq_true_eq] at h ⊢
      omega
    | some i =>
      rw [canFormGroups_succ_some hfn] at h
      rw [canFormGroups_succ_some hfn]
      rw [Bool.or_eq_true] at h ⊢
      rcases h with h | h
      · left
        rw [Bool.or_eq_true] at h ⊢
        rcases h with h | h
        · left
          rw [Bool.or_eq_true] at h ⊢
          rcases h with h | h
          · left
            by_cases hg : 3 ≤ counts i
            · rw [if_pos hg] at h ⊢
              exact ih _ _ k h
            · rw [if_neg hg] at h
              exact absurd h (by simp)
          · right
            by_cases hg : 3 ≤ counts i + m
            · rw [if_pos hg] at h
              rw [if_pos (show 3 ≤ counts i + (m + k) by omega)]
              have he : m + k + counts i - 3 = m + counts i - 3 + k := by omega
              rw [he]
              exact ih _ _ k h
            · rw [if_neg hg] at h
              exact absurd h (by simp)
        · right
          by_cases hg1 : i < 27 ∧ i % 9 ≤ 6
          · rw [if_pos hg1] at h ⊢
            by_cases hg2 : 3 ≤ counts i + counts (i + 1) + counts (i + 2) + m
            · rw [if_pos hg2] at h
              rw [if_pos (show
                  3 ≤ counts i + counts (i + 1) + counts (i + 2) + (m + k) by omega)]
              have he : m + k + (counts i + counts (i + 1) + counts (i + 2)) - 3 =
                  m + (counts i + counts (i + 1) + counts (i + 2)) - 3 + k := by omega
              rw [he]
              exact ih _ _ k h
            · rw [if_neg hg2] at h
              exact absurd h (by simp)
          · rw [if_neg hg1] at h
            exact absurd h (by simp)
      · right
        simp only [decide_eq_true_eq] at h ⊢
        omega

theorem removeJiang_mono {counts : Nat → Nat} {m k j : Nat} {c2 : Nat → Nat} {m2 : Nat}
    (h : removeJiang counts m j = some (c2, m2)) :
    removeJiang counts (m + k) j = some (c2, m2 + k) := by
  unfold removeJiang at h ⊢
  by_cases h1 : 2 ≤ counts j
  · rw [if_pos h1] at h ⊢
    cases h
    rfl
  · rw [if_neg h1] at h ⊢
    by_cases h2 : counts j = 1 ∧ 1 ≤ m
    · rw [if_pos h2] at h
      rw [if_pos (show counts j = 1 ∧ 1 ≤ m + k from ⟨h2.1, by omega⟩)]
      cases h
      simp only [Option.some.injEq, Prod.mk.injEq]
      exact ⟨trivial, by omega⟩
    · rw [if_neg h2] at h
      by_cases h3 : 2 ≤ m
      · rw [if_pos h3] at h
        have h2' : ¬(counts j = 1 ∧ 1 ≤ m + k) := fun hc => h2 ⟨hc.1, by omega⟩
        rw [if_neg h2', if_pos (show 2 ≤ m + k by omega)]
        cases h
        simp only [Option.some.injEq, Prod.mk.injEq]
        exact ⟨trivial, by omega⟩
      · rw [if_neg h3] at h
        cases h

theorem eyeOk_mono {n : Nat} {counts : Nat → Nat} {m k j : Nat}
    (h : eyeOk n counts m j = true) : eyeOk n counts (m + k) j = true := by
  unfold eyeOk at h ⊢
  by_cases hj : (Card.fromIndex (j : Int)).isJiang = true
  · rw [if_pos hj] at h ⊢
    cases hrm : removeJiang counts m j with
    | none => rw [hrm] at h; simp at h
    | some p =>
      obtain ⟨c2, m2⟩ := p
      rw [hrm] at h
      rw [removeJiang_mono hrm]
      exact canFormGroups_mono n 4 c2 m2 k h
  · rw [if_neg hj] at h
    simp at h

theorem checkStandardFrom_mono {n : Nat} {counts : Nat → Nat} {m k : Nat} :
    ∀ fuel start, (checkStandardFrom n counts m start fuel).isSome = true →
      (checkStandardFrom n counts (m + k) start fuel).isSome = true := by
  intro fuel
  induction fuel with
  | zero => intro start h; simp [checkStandardFrom] at h
  | succ f ih =>
    intro start h
    unfold checkStandardFrom at h ⊢
    by_cases he : eyeOk n counts (m + k) start = true
    · rw [if_pos he]
      rfl
    · rw [if_neg he]
      have he0 : ¬ eyeOk n counts m start = true := fun hh => he (eyeOk_mono hh)
      rw [if_neg he0] at h
      exact ih _ h

theorem checkStandard_mono {n : Nat} {counts : Nat → Nat} {m : Nat} (k : Nat)
    (h : (checkStandard n counts m).isSome = true) :
    (checkStandard n counts (m + k)).isSome = true := by
  unfold checkStandard at h ⊢
  exact checkStandardFrom_mono n 0 h

/-! ### What the eye scan returns -/

theorem checkStandardFrom_isJiang {n : Nat} {counts : Nat → Nat} {m : Nat} :
    ∀ fuel start c, checkStandardFrom n counts m start fuel = some c →
      c.isJiang = true := by
  intro fuel
  induction fuel with
  | zero => intro start c h; simp [checkStandardFrom] at h
  | succ f ih =>
    intro start c h
    unfold checkStandardFrom at h
    by_cases he : eyeOk n counts m start = true
    · rw [if_pos he] at h
      cases h
      unfold eyeOk at he
      by_cases hj : (Card.fromIndex (start : Int)).isJiang = true
      · exact hj
      · rw [if_neg hj] at he
        simp at he
    · rw [if_neg he] at h
      exact ih _ _ h

theorem checkStandardFrom_some_of_eyeOk {n : Nat} {counts : Nat → Nat} {m : Nat} :
    ∀ fuel start e, start ≤ e → e < start + fuel → eyeOk n counts m e = true →
      (checkStandardFrom n counts m start fuel).isSome = true := by
  intro fuel
  induction fuel with
  | zero => intro start e h1 h2 _; omega
  | succ f ih =>
    intro start e h1 h2 h3
    unfold checkStandardFrom
    by_cases he : eyeOk n counts m start = true
    · rw [if_pos he]
      rfl
    · rw [if_neg he]
      have hlt : start + 1 ≤ e := by
        rcases Nat.eq_or_lt_of_le h1 with rfl | hstep
        · exact absurd h3 he
        · omega
      exact ih (start + 1) e hlt (by omega) h3

/-! ## Claim theorems -/

/-- A pair-eligible index lies in the numeric-suit part of the alphabet. -/
theorem isJiang_fromIndex_lt {e : Nat}
    (h : (Card.fromIndex (e : Int)).isJiang = true) : e < 27 := by
  by_contra hge
  push_neg at hge
  unfold Card.fromIndex at h
  rw [if_neg (by omega), if_neg (by omega), if_neg (by omega)] at h
  split_ifs at h <;> simp [Card.isJiang] at h

/-- C1 (amended): a hand that is a disjoint union of 4 valid groups and a
pair of a pair-eligible tile, with no wildcards, always reports complete;
the reported shape is Standard whenever the hand does not also count seven
natural pairs (the seven-pairs check runs first and takes precedence); and
the concrete scenario hand reports Standard with eye (suit B = tong,
rank 2). -/
theorem claim1_amended (hand : List Card) (gs : List GroupSpec) (e : Nat)
    (hlen : gs.length = 4) (hv : ∀ g ∈ gs, g.valid = true)
    (hej : (Card.fromIndex (e : Int)).isJiang = true)
    (hperm : hand.Perm
      (groupsCards gs ++ [Card.fromIndex (e : Int), Card.fromIndex (e : Int)])) :
    ((canHu 27 hand 0).isSome = true ∧
        (pairsOf hand < 7 → ∃ c, canHu 27 hand 0 = some (HuType.pinghu c))) ∧
      canHu 27 stdWinHand 0 = some (HuType.pinghu ⟨CardType.tong, 2⟩) := by
  have he27 : e < 27 := isJiang_fromIndex_lt hej
  have hcount := countsOf_decomp hv hperm
  have hco : countsOf hand e = sumGC gs e + 2 := by
    rw [hcount e]; simp
  have hstd : (checkStandard 27 (countsOf hand) 0).isSome = true := by
    have hforms :
        canFormGroups 27 4 (setC (countsOf hand) e (countsOf hand e - 2)) 0 = true := by
      apply canFormGroups_complete 4 gs _ 0 hlen hv
      intro j
      by_cases hje : j = e
      · subst hje
        have hs : setC (countsOf hand) j (countsOf hand j - 2) j
            = countsOf hand j - 2 := by simp [setC]
        rw [hs, hco]
        omega
      · simp only [setC, if_neg hje]
        rw [hcount j]
        simp [hje]
    have heye : eyeOk 27 (countsOf hand) 0 e = true := by
      unfold eyeOk
      rw [if_pos hej]
      have hrm : removeJiang (countsOf hand) 0 e =
          some (setC (countsOf hand) e (countsOf hand e - 2), 0) := by
        unfold removeJiang
        rw [if_pos (show 2 ≤ countsOf hand e by omega)]
      rw [hrm]
      exact hforms
    unfold checkStandard
    exact checkStandardFrom_some_of_eyeOk 27 0 e (Nat.zero_le e) (by omega) heye
  refine ⟨⟨?_, ?_⟩, by decide⟩
  · unfold canHu
    by_cases hq : checkQidui hand 0 = true
    · rw [if_pos hq]
      rfl
    · rw [if_neg hq]
      cases hcs : checkStandard 27 (countsOf hand) 0 with
      | none => rw [hcs] at hstd; simp at hstd
      | some c => rfl
  · intro hp
    unfold canHu
    have hq : ¬ checkQidui hand 0 = true := by
      rw [checkQidui_iff]
      omega
    rw [if_neg hq]
    cases hcs : checkStandard 27 (countsOf hand) 0 with
    | none => rw [hcs] at hstd; simp at hstd
    | some c => exact ⟨c, rfl⟩

/-- C1 counterexample to the claim as stated: four valid runs (1-2-3 wan
twice, 1-2-3 tong twice) plus a 2-tiao pair satisfy the claim's hypotheses
with zero wildcards, yet `can_hu` reports SevenPairs rather than Standard,
because the seven-pairs check runs first and the tiles also form seven
natural pairs. -/
theorem claim1_counterexample :
    (∀ g ∈ [GroupSpec.run 0, GroupSpec.run 0, GroupSpec.run 9, GroupSpec.run 9],
        g.valid = true) ∧
      (Card.fromIndex ((19 : Nat) : Int)).isJiang = true ∧
      fourRunHand.Perm
        (groupsCards [GroupSpec.run 0, GroupSpec.run 0, GroupSpec.run 9, GroupSpec.run 9] ++
          [Card.fromIndex ((19 : Nat) : Int), Card.fromIndex ((19 : Nat) : Int)]) ∧
      canHu 27 fourRunHand 0 = some HuType.qidui :=
  ⟨by decide, by decide, List.Perm.refl _, by decide⟩

/-- C1 witness: the amended statement applied to the scenario hand's own
decomposition (two wan runs, a tong triplet, a tiao run, eye 2-tong). -/
theorem claim1_amended_witness :
    ((canHu 27 stdWinHand 0).isSome = true ∧
        (pairsOf stdWinHand < 7 →
          ∃ c, canHu 27 stdWinHand 0 = some (HuType.pinghu c))) ∧
      canHu 27 stdWinHand 0 = some (HuType.pinghu ⟨CardType.tong, 2⟩) :=
  claim1_amended stdWinHand [GroupSpec.run 0, GroupSpec.run 3, GroupSpec.trip 11,
    GroupSpec.run 22] 10 (by decide) (by decide) (by decide) (by decide)

/-- A hand decomposable into four valid groups plus a natural pair of a
pair-eligible tile — i.e. a genuine zero-substitution standard win — passes
the reference standard check. -/
theorem specStandard_of_decomp {hand : List Card} {gs : List GroupSpec} {e : Nat}
    (hlen : gs.length = 4) (hv : ∀ g ∈ gs, g.valid = true)
    (hej : (Card.fromIndex (e : Int)).isJiang = true)
    (hperm : hand.Perm
      (groupsCards gs ++ [Card.fromIndex (e : Int), Card.fromIndex (e : Int)])) :
    specStandard hand = true := by
  have he27 : e < 27 := isJiang_fromIndex_lt hej
  have hcount := countsOf_decomp hv hperm
  have hco : countsOf hand e = sumGC gs e + 2 := by
    rw [hcount e]; simp
  rw [specStandard, List.any_eq_true]
  refine ⟨e, List.mem_range.mpr he27, ?_⟩
  rw [Bool.and_eq_true, Bool.and_eq_true]
  refine ⟨⟨hej, by rw [decide_eq_true_eq]; omega⟩, ?_⟩
  apply specFormGroups_complete 4 gs _ hlen hv
  intro j
  by_cases hje : j = e
  · subst hje
    have hs : setC (countsOf hand) j (countsOf hand j - 2) j
        = countsOf hand j - 2 := by simp [setC]
    rw [hs, hco]
    omega
  · simp only [setC, if_neg hje]
    rw [hcount j]
    simp [hje]

/-- C2 (code bug): `bugHand` with zero wildcards has six natural pairs and
no genuine decomposition into four groups plus an eligible pair, so every
completion needs at least one wildcard substitution; yet `can_hu` accepts
it with zero wildcards (Standard, eye (wan, 5)).  The search consumes the
four 1-wan as one "triplet" with `used_magic = 3 - 4 = -1`, *increasing*
the budget mid-search instead of spending it. -/
theorem claim2_budget_bug :
    canHu 27 bugHand 0 = some (HuType.pinghu ⟨CardType.wan, 5⟩) ∧
      pairsOf bugHand = 6 ∧
      ¬ ∃ (gs : List GroupSpec) (e : Nat), gs.length = 4 ∧
          (∀ g ∈ gs, g.valid = true) ∧
          (Card.fromIndex (e : Int)).isJiang = true ∧
          bugHand.Perm
            (groupsCards gs ++ [Card.fromIndex (e : Int), Card.fromIndex (e : Int)]) := by
  refine ⟨by decide, by decide, ?_⟩
  rintro ⟨gs, e, hlen, hv, hej, hperm⟩
  have hs := specStandard_of_decomp hlen hv hej hperm
  have hf : specStandard bugHand = false := by decide
  rw [hf] at hs
  exact Bool.noConfusion hs

/-- C3: whenever `can_hu` reports a Standard completion, the returned eye
("jiang") tile is a numeric-suit tile of rank 2, 5 or 8 — the eye scan
skips every other kind unconditionally, wildcard-synthesized pairs
included. -/
theorem claim3_eye_always_jiang (n : Nat) (hand : List Card) (m : Nat) (c : Card)
    (h : canHu n hand m = some (HuType.pinghu c)) : c.isJiang = true := by
  unfold canHu at h
  split_ifs at h with hq
  · exact absurd h (by simp)
  · cases hcs : checkStandard n (countsOf hand) m with
    | none => rw [hcs] at h; simp at h
    | some c' =>
      rw [hcs] at h
      have hcc : c' = c := by simpa using h
      subst hcc
      unfold checkStandard at hcs
      exact checkStandardFrom_isJiang n 0 c' hcs

/-- C3 witness: on the standard scenario hand the eye is (tong, 2), which
is pair-eligible. -/
theorem claim3_witness :
    canHu 27 stdWinHand 0 = some (HuType.pinghu ⟨CardType.tong, 2⟩) ∧
      (Card.mk CardType.tong 2).isJiang = true :=
  ⟨by decide, claim3_eye_always_jiang 27 stdWinHand 0 _ (by decide)⟩

/-- C4 (amended): `can_hu` reports the SevenPairs shape iff the natural
pairs plus the wildcard count reach 7, and the seven-pairs check takes
precedence over the standard check. -/
theorem claim4_amended (hand : List Card) (m : Nat) (_hlen : hand.length = 14) :
    canHu 27 hand m = some HuType.qidui ↔ 7 ≤ pairsOf hand + m := by
  unfold canHu
  by_cases hq : checkQidui hand m = true
  · rw [if_pos hq]
    constructor
    · intro _
      exact (checkQidui_iff hand m).mp hq
    · intro _
      rfl
  · rw [if_neg hq]
    constructor
    · intro h
      cases hcs : checkStandard 27 (countsOf hand) m with
      | none => rw [hcs] at h; simp at h
      | some c => rw [hcs] at h; simp at h
    · intro h
      exact absurd ((checkQidui_iff hand m).mpr h) hq

/-- C4 witness: seven distinct kinds held twice each satisfy the
seven-pairs count and report SevenPairs. -/
theorem claim4_witness :
    qiduiHand.length = 14 ∧ canHu 27 qiduiHand 0 = some HuType.qidui :=
  ⟨by decide, (claim4_amended qiduiHand 0 (by decide)).mpr (by decide)⟩

/-- C4 counterexample to the claim as stated: a 14-tile hand with exactly
6 natural pairs and 2 singles that is nevertheless complete with 0
wildcards — through the Standard shape (eye (tiao, 5)), so "6 pairs plus
2 singles with 0 wildcards is incomplete" fails. -/
theorem claim4_counterexample :
    sixPairStdHand.length = 14 ∧ pairsOf sixPairStdHand = 6 ∧
      canHu 27 sixPairStdHand 0 = some (HuType.pinghu ⟨CardType.tiao, 5⟩) :=
  ⟨by decide, by decide, by decide⟩

/-- C5: membership in `get_ting_cards` is exactly completeness of the hand
with one copy of the tile added, and every returned tile lies in the
configured alphabet. -/
theorem claim5_ting_iff (n : Nat) (hand : List Card) (m : Nat) :
    (∀ i : Nat, i < n →
        (Card.fromIndex (i : Int) ∈ getTingCards n hand m ↔
          (canHu n (hand ++ [Card.fromIndex (i : Int)]) m).isSome = true)) ∧
      ∀ c ∈ getTingCards n hand m, ∃ i : Nat, i < n ∧ c = Card.fromIndex (i : Int) := by
  constructor
  · intro i hi
    unfold getTingCards
    rw [List.mem_map]
    constructor
    · rintro ⟨j, hj, hje⟩
      rw [List.mem_filter, List.mem_range] at hj
      have hji : j = i := fromIndex_inj hje
      subst hji
      exact hj.2
    · intro h
      exact ⟨i, List.mem_filter.mpr ⟨List.mem_range.mpr hi, h⟩, rfl⟩
  · intro c hc
    unfold getTingCards at hc
    rw [List.mem_map] at hc
    obtain ⟨j, hj, rfl⟩ := hc
    rw [List.mem_filter, List.mem_range] at hj
    exact ⟨j, hj.1, rfl⟩

/-- C5 witness: the 3-tong kind (index 11) is waited on by the concrete
tenpai hand, and membership agrees with `can_hu` on the extended hand. -/
theorem claim5_witness :
    ((11 : Nat) < 27) ∧
      (Card.fromIndex ((11 : Nat) : Int) ∈ getTingCards 27 tenpaiHand 0 ↔
        (canHu 27 (tenpaiHand ++ [Card.fromIndex ((11 : Nat) : Int)]) 0).isSome = true) ∧
      Card.fromIndex ((11 : Nat) : Int) ∈ getTingCards 27 tenpaiHand 0 :=
  ⟨by omega, (claim5_ting_iff 27 tenpaiHand 0).1 11 (by omega), by decide⟩

theorem mem_ite_singleton {α : Type} (c : Prop) [Decidable c] (a x : α) :
    (a ∈ if c then [x] else ([] : List α)) ↔ c ∧ a = x := by
  split_ifs with h
  · simp [h]
  · simp [h]

/-- C6: `can_chi` returns nothing unless the discard comes from the seat
directly upstream ((discarder − claimant) mod 4 = 3) and the claimed tile
is in a numeric suit; in the live case it returns exactly those of the
three run shapes (claimed tile low, middle, high) whose two other members
are both present in the hand. -/
theorem claim6_chi_exact (hand : List Card) (card : Card) (p d : Int) :
    ((d - p) % 4 ≠ 3 → canChi hand card p d = []) ∧
      ((card.type = CardType.feng ∨ card.type = CardType.jian) →
        canChi hand card p d = []) ∧
      ∀ g, g ∈ canChi hand card p d ↔
        ((d - p) % 4 = 3 ∧ ¬(card.type = CardType.feng ∨ card.type = CardType.jian) ∧
          ((g = [card, Card.mk card.type (card.value + 1),
                Card.mk card.type (card.value + 2)] ∧
              card.value ≤ 7 ∧ Card.mk card.type (card.value + 1) ∈ hand ∧
              Card.mk card.type (card.value + 2) ∈ hand) ∨
           (g = [Card.mk card.type (card.value - 1), card,
                Card.mk card.type (card.value + 1)] ∧
              2 ≤ card.value ∧ card.value ≤ 8 ∧
              Card.mk card.type (card.value - 1) ∈ hand ∧
              Card.mk card.type (card.value + 1) ∈ hand) ∨
           (g = [Card.mk card.type (card.value - 2), Card.mk card.type (card.value - 1),
                card] ∧
              3 ≤ card.value ∧ Card.mk card.type (card.value - 2) ∈ hand ∧
              Card.mk card.type (card.value - 1) ∈ hand))) := by
  by_cases h1 : (d - p) % 4 = 3
  · by_cases h2 : card.type = CardType.feng ∨ card.type = CardType.jian
    · have hres : canChi hand card p d = [] := by
        unfold canChi
        rw [if_neg (fun hc => hc h1), if_pos h2]
      refine ⟨fun hc => absurd h1 hc, fun _ => hres, ?_⟩
      intro g
      rw [hres]
      simp only [List.not_mem_nil, false_iff]
      rintro ⟨_, hn2, _⟩
      exact hn2 h2
    · have hres : canChi hand card p d =
          (if card.value ≤ 7 ∧ Card.mk card.type (card.value + 1) ∈ hand ∧
              Card.mk card.type (card.value + 2) ∈ hand then
            [[card, Card.mk card.type (card.value + 1), Card.mk card.type (card.value + 2)]]
          else []) ++
          (if 2 ≤ card.value ∧ card.value ≤ 8 ∧ Card.mk card.type (card.value - 1) ∈ hand ∧
              Card.mk card.type (card.value + 1) ∈ hand then
            [[Card.mk card.type (card.value - 1), card, Card.mk card.type (card.value + 1)]]
          else []) ++
          (if 3 ≤ card.value ∧ Card.mk card.type (card.value - 2) ∈ hand ∧
              Card.mk card.type (card.value - 1) ∈ hand then
            [[Card.mk card.type (card.value - 2), Card.mk card.type (card.value - 1), card]]
          else []) := by
        unfold canChi
        rw [if_neg (fun hc => hc h1), if_neg h2]
      refine ⟨fun hc => absurd h1 hc, fun hc => absurd hc h2, ?_⟩
      intro g
      rw [hres]
      simp only [List.mem_append, mem_ite_singleton]
      constructor
      · rintro ((⟨hc, rfl⟩ | ⟨hc, rfl⟩) | ⟨hc, rfl⟩)
        · exact ⟨h1, h2, Or.inl ⟨rfl, hc.1, hc.2.1, hc.2.2⟩⟩
        · exact ⟨h1, h2, Or.inr (Or.inl ⟨rfl, hc.1, hc.2.1, hc.2.2.1, hc.2.2.2⟩)⟩
        · exact ⟨h1, h2, Or.inr (Or.inr ⟨rfl, hc.1, hc.2.1, hc.2.2⟩)⟩
      · rintro ⟨_, _, (⟨rfl, ha, hb, hc⟩ | ⟨rfl, ha, hb, hc, hd⟩ | ⟨rfl, ha, hb, hc⟩)⟩
        · exact Or.inl (Or.inl ⟨⟨ha, hb, hc⟩, rfl⟩)
        · exact Or.inl (Or.inr ⟨⟨ha, hb, hc, hd⟩, rfl⟩)
        · exact Or.inr ⟨⟨ha, hb, hc⟩, rfl⟩
  · have hres : canChi hand card p d = [] := by
      unfold canChi
      rw [if_pos h1]
    refine ⟨fun _ => hres, fun _ => hres, ?_⟩
    intro g
    rw [hres]
    simp only [List.not_mem_nil, false_iff]
    rintro ⟨hn1, _, _⟩
    exact h1 hn1

/-- C6 witness: with the claimant directly after the discarder all three
shapes around 3-wan are returned for a hand holding 1,2,4,5-wan minus the
low shape (1-wan and 2-wan present, 4-wan and 5-wan present, 3-wan as
middle and high and low); a claim from two seats ahead is empty. -/
theorem claim6_witness :
    ([⟨CardType.wan, 2⟩, ⟨CardType.wan, 3⟩, ⟨CardType.wan, 4⟩] : List Card) ∈
        canChi chiHand ⟨CardType.wan, 3⟩ 0 3 ∧
      canChi chiHand ⟨CardType.wan, 3⟩ 0 2 = [] := by
  constructor
  · exact ((claim6_chi_exact chiHand ⟨CardType.wan, 3⟩ 0 3).2.2 _).mpr
      ⟨by decide, by decide, Or.inr (Or.inl ⟨rfl, by decide, by decide, by decide, by decide⟩)⟩
  · exact (claim6_chi_exact chiHand ⟨CardType.wan, 3⟩ 0 2).1 (by decide)

/-- C8: `calculate_fan` computes base(shape) + 2·(number of quads) +
self-draw + dealer + wildcard count, and the seven-pairs base (4) exceeds
the standard base (1); the result is a nonnegative integer by type, with
no error path. -/
theorem claim8_fan_formula (huType : String) (pengCards gangCards : List (List Card))
    (isZimo isZhuang : Bool) (magicCount : Nat) :
    calculateFan huType pengCards gangCards isZimo isZhuang magicCount =
        baseFan huType + 2 * gangCards.length + (if isZimo then 1 else 0) +
          (if isZhuang then 1 else 0) + magicCount ∧
      baseFan "平胡" < baseFan "七对" := by
  constructor
  · simp only [calculateFan, baseFan]
    split_ifs <;> omega
  · simp [baseFan]

/-- C9 counterexample: out-of-range indexes are silently coerced — index 34
yields the card (JIAN, 4) and index −1 the card (WAN, 0), both with ranks
outside the documented ranges; no `InvalidTileError` or any other error
path exists in `Card.from_index`. -/
theorem claim9_counterexample :
    Card.fromIndex 34 = { type := CardType.jian, value := 4 } ∧
      (Card.fromIndex 34).valid = false ∧
      Card.fromIndex (-1) = { type := CardType.wan, value := 0 } ∧
      (Card.fromIndex (-1)).valid = false :=
  ⟨by decide, by decide, by decide, by decide⟩

/-- C9 (amended): `from_index` is total and never fails; every integer
index outside 0..33 is silently coerced to a card whose rank lies outside
the documented range of its suit. -/
theorem claim9_amended (i : Int) (h : i < 0 ∨ 34 ≤ i) :
    (Card.fromIndex i).valid = false := by
  unfold Card.fromIndex
  split_ifs with h1 h2 h3 h4 <;>
    simp only [Card.valid, decide_eq_false_iff_not] <;> omega

/-- C9 witness: the amended statement applied at index 34. -/
theorem claim9_amended_witness :
    ((34 : Int) < 0 ∨ 34 ≤ (34 : Int)) ∧ (Card.fromIndex 34).valid = false :=
  ⟨Or.inr (by omega), claim9_amended 34 (Or.inr (by omega))⟩

/-- C10: enlarging the wildcard budget never turns a winning hand into a
non-winning one — `can_hu` is monotone in the wildcard count. -/
theorem claim10_wildcard_monotone (n : Nat) (hand : List Card) (m m' : Nat)
    (hm : m ≤ m') (h : (canHu n hand m).isSome = true) :
    (canHu n hand m').isSome = true := by
  obtain ⟨k, rfl⟩ : ∃ k, m' = m + k := ⟨m' - m, by omega⟩
  unfold canHu at h ⊢
  by_cases hq : checkQidui hand (m + k) = true
  · rw [if_pos hq]
    rfl
  · rw [if_neg hq]
    have hq0 : ¬ checkQidui hand m = true := by
      intro hh
      apply hq
      rw [checkQidui_iff] at hh ⊢
      omega
    rw [if_neg hq0] at h
    have h2 : (checkStandard n (countsOf hand) m).isSome = true := by
      cases hcs : checkStandard n (countsOf hand) m with
      | none => rw [hcs] at h; simp at h
      | some c => rfl
    have h3 := checkStandard_mono k h2
    cases hcs' : checkStandard n (countsOf hand) (m + k) with
    | none => rw [hcs'] at h3; simp at h3
    | some c => rfl

/-- C10 witness: the scenario hand stays winning when the budget grows from
0 to 1. -/
theorem claim10_witness :
    (canHu 27 stdWinHand 0).isSome = true ∧ (canHu 27 stdWinHand 1).isSome = true :=
  ⟨by decide, claim10_wildcard_monotone 27 stdWinHand 0 1 (by omega) (by decide)⟩

/-! ### Tile conservation in the simulator (C7) -/

theorem popEnd_some_length {w w' : List Card} {c : Card}
    (h : popEnd w = some (c, w')) : w'.length + 1 = w.length := by
  unfold popEnd at h
  cases hr : w.reverse with
  | nil => rw [hr] at h; cases h
  | cons a t =>
    rw [hr] at h
    have h1 : w.length = t.length + 1 := by
      rw [← List.length_reverse w, hr]
      simp
    cases h
    simp [h1]

theorem popEnd_isSome {w : List Card} (h : w ≠ []) :
    ∃ c w', popEnd w = some (c, w') := by
  unfold popEnd
  cases hr : w.reverse with
  | nil => exact absurd (List.reverse_eq_nil_iff.mp hr) h
  | cons a t => exact ⟨a, t.reverse, rfl⟩

theorem popN_spec : ∀ (k : Nat) (w : List Card), k ≤ w.length →
    ∃ taken rest, popN k w = some (taken, rest) ∧ taken.length = k ∧
      rest.length = w.length - k := by
  intro k
  induction k with
  | zero => intro w _; exact ⟨[], w, rfl, rfl, by omega⟩
  | succ k ih =>
    intro w h
    have hne : w ≠ [] := by
      intro hw
      rw [hw] at h
      simp at h
    obtain ⟨c, w', hpop⟩ := popEnd_isSome hne
    have hlen := popEnd_some_length hpop
    obtain ⟨taken, rest, hpn, ht, hr⟩ := ih w' (by omega)
    refine ⟨c :: taken, rest, ?_, by simp [ht], by rw [hr]; omega⟩
    unfold popN
    simp only [hpop, hpn]

theorem shuffleAndDeal_spec {wall0 : List Card} (hw : wall0.length = 108) :
    ∃ d, shuffleAndDeal wall0 = some d ∧ d.wall.length = 54 ∧
      d.hands.map List.length = [14, 13, 13, 13] := by
  obtain ⟨h0, w1, hp0, hl0, hw1⟩ := popN_spec 14 wall0 (by omega)
  obtain ⟨h1, w2, hp1, hl1, hw2⟩ := popN_spec 13 w1 (by omega)
  obtain ⟨h2, w3, hp2, hl2, hw3⟩ := popN_spec 13 w2 (by omega)
  obtain ⟨h3, w4, hp3, hl3, hw4⟩ := popN_spec 13 w3 (by omega)
  have hw4' : w4.length = 55 := by omega
  have hne : w4 ≠ [] := by
    intro hn
    rw [hn] at hw4'
    simp at hw4'
  obtain ⟨magic, w5, hp5⟩ := popEnd_isSome hne
  have hw5 := popEnd_some_length hp5
  refine ⟨⟨[h0, h1, h2, h3], magic, w5⟩, ?_, by simp only; omega,
    by simp [hl0, hl1, hl2, hl3]⟩
  unfold shuffleAndDeal
  simp only [hp0, hp1, hp2, hp3, hp5]

theorem length_getD (l : List (List Card)) (n : Nat) :
    (l.getD n []).length = (l.map List.length).getD n 0 := by
  induction l generalizing n with
  | nil => simp [List.getD]
  | cons a t ih =>
    cases n with
    | zero => simp [List.getD]
    | succ n =>
      simp only [List.getD_cons_succ, List.map_cons]
      exact ih n

theorem simStep_conserves {choose : List Card → Card}
    (hch : ∀ l, l ≠ [] → choose l ∈ l) {s s' : SimState}
    (hI : tileConserved s) (hstep : simStep choose s = StepResult.cont s') :
    tileConserved s' := by
  unfold simStep at hstep
  cases hpop : popEnd s.wall with
  | none => rw [hpop] at hstep; cases hstep
  | some cw =>
    obtain ⟨c, wall'⟩ := cw
    simp only [hpop] at hstep
    split_ifs at hstep with hhu hclaim
    cases hstep
    have hwl : wall'.length + 1 = s.wall.length := popEnd_some_length hpop
    have hne : drawnHand s c ≠ [] := by simp [drawnHand]
    have hmem : choose (drawnHand s c) ∈ drawnHand s c := hch _ hne
    have hlen2 : (afterDiscard (drawnHand s c) (choose (drawnHand s c))).length
        = (s.players s.current).hand.length := by
      unfold afterDiscard
      rw [if_pos hmem, List.length_erase_of_mem hmem]
      simp [drawnHand]
    simp only [tileConserved, handsTotal] at hI ⊢
    have hcomp : ∀ i : Fin 4,
        ((Function.update s.players s.current
          ⟨afterDiscard (drawnHand s c) (choose (drawnHand s c)), drawnMagic s c⟩) i).hand.length
        = Function.update (fun j => (s.players j).hand.length) s.current
            ((s.players s.current).hand.length) i := by
      intro i
      by_cases hi : i = s.current
      · subst hi
        simp [Function.update, hlen2]
      · simp [Function.update, hi]
    rw [Finset.sum_congr rfl (fun i _ => hcomp i)]
    rw [Finset.sum_update_of_mem (Finset.mem_univ s.current)]
    rw [Finset.sum_eq_sum_diff_singleton_add (Finset.mem_univ s.current)
      (fun j => (s.players j).hand.length)] at hI
    simp only [List.length_append, List.length_cons, List.length_nil]
    omega

theorem runSim_conserves {choose : List Card → Card}
    (hch : ∀ l, l ≠ [] → choose l ∈ l) :
    ∀ (k : Nat) (s s' : SimState), tileConserved s →
      runSim choose k s = some s' → tileConserved s' := by
  intro k
  induction k with
  | zero =>
    intro s s' hI h
    cases h
    exact hI
  | succ k ih =>
    intro s s' hI h
    unfold runSim at h
    cases hst : simStep choose s with
    | terminal => rw [hst] at h; cases h
    | cont s1 =>
      rw [hst] at h
      exact ih s1 s' (simStep_conserves hch hI hst) h

/-- C7: from any shuffled 108-tile wall the deal leaves 54 wall tiles, the
hands hold 14+13+13+13 tiles with one tile set aside as the wildcard, and
at every turn boundary of the simulated round (for any discard choice that
picks a tile of the hand) the wall, the wildcard tile, the four hands and
the global discard pile sum to 108. -/
theorem claim7_tile_conservation (wall0 : List Card) (choose : List Card → Card)
    (hw : wall0.length = 108) (hch : ∀ l, l ≠ [] → choose l ∈ l) :
    ∃ d, shuffleAndDeal wall0 = some d ∧ d.wall.length = 54 ∧
      d.hands.map List.length = [14, 13, 13, 13] ∧
      tileConserved (initState d) ∧
      ∀ k s', runSim choose k (initState d) = some s' → tileConserved s' := by
  obtain ⟨d, hdeal, hwall, hhands⟩ := shuffleAndDeal_spec hw
  have h0 : (d.hands.getD 0 []).length = 14 := by
    rw [length_getD, hhands]
    rfl
  have h1 : (d.hands.getD 1 []).length = 13 := by
    rw [length_getD, hhands]
    rfl
  have h2 : (d.hands.getD 2 []).length = 13 := by
    rw [length_getD, hhands]
    rfl
  have h3 : (d.hands.getD 3 []).length = 13 := by
    rw [length_getD, hhands]
    rfl
  have hInit : tileConserved (initState d) := by
    simp only [tileConserved, initState, handsTotal, initPlayers, Fin.sum_univ_four]
    have e0 : ((0 : Fin 4) : Nat) = 0 := rfl
    have e1 : ((1 : Fin 4) : Nat) = 1 := rfl
    have e2 : ((2 : Fin 4) : Nat) = 2 := rfl
    have e3 : ((3 : Fin 4) : Nat) = 3 := rfl
    rw [e0, e1, e2, e3, h0, h1, h2, h3]
    simp only [List.length_nil]
    omega
  exact ⟨d, hdeal, hwall, hhands, hInit,
    fun k s' => runSim_conserves hch k _ s' hInit⟩

/-- A concrete discard policy: always discard the first tile of the hand. -/
def headChoose : List Card → Card :=
  fun l => l.headD ⟨CardType.wan, 1⟩

theorem headChoose_mem : ∀ l : List Card, l ≠ [] → headChoose l ∈ l := by
  intro l hl
  cases l with
  | nil => exact absurd rfl hl
  | cons a t => simp [headChoose]

/-- C7 witness: the conservation theorem applied to the unshuffled 108-tile
population and the head-discard policy. -/
theorem claim7_witness :
    initCards.length = 108 ∧
      ∃ d, shuffleAndDeal initCards = some d ∧ d.wall.length = 54 ∧
        d.hands.map List.length = [14, 13, 13, 13] ∧
        tileConserved (initState d) ∧
        ∀ k s', runSim headChoose k (initState d) = some s' → tileConserved s' :=
  ⟨by decide, claim7_tile_conservation initCards headChoose (by decide) headChoose_mem⟩

end Mahjong
